import Mathlib

/-!
Verification of the `ref-fetch` repository-resolution and caching pipeline
(`ref_fetch.py`) against its natural-language specification.

Strings are modelled as `List Char` (Python `str`).  Each definition in the
`RefFetch` namespace is a shallow embedding of the correspondingly named
Python function; network calls and subprocess invocations are modelled by
explicit oracle parameters, and filesystem effects by explicit state values
and operation traces.
-/

namespace RefFetch

/-- Python `s.lower()` (ASCII-relevant part, as used on URLs and keys). -/
def lowerStr (s : List Char) : List Char := s.map Char.toLower

/-- Python's `pat in s` substring test on strings. -/
def containsSub (pat : List Char) : List Char → Bool
  | [] => pat.isEmpty
  | c :: rest => pat.isPrefixOf (c :: rest) || containsSub pat rest

/-- Python truthiness of an optional string: `None` and `""` are falsy. -/
def truthy : Option (List Char) → Bool
  | none => false
  | some s => !s.isEmpty

/-- `is_git_repo` (ref_fetch.py line 354): substring membership of the two
supported hosts. -/
def is_git_repo (url : List Char) : Bool :=
  containsSub "github.com".data url || containsSub "gitlab.com".data url

/-- One attempt of the regex `https://<host>/[^-slash]+/[^-slash]+` anchored at
the start of `s`, where `pre` is the literal `https://<host>/` part.  Returns
the matched substring (the capture group), exactly as the regex engine would:
owner and repo are the maximal nonempty slash-free runs after `pre`. -/
def matchRepoAt (pre : List Char) (s : List Char) : Option (List Char) :=
  if pre.isPrefixOf s then
    let rest := s.drop pre.length
    let owner := rest.takeWhile (· != '/')
    match rest.dropWhile (· != '/') with
    | '/' :: rest2 =>
      let repo := rest2.takeWhile (· != '/')
      if owner.isEmpty || repo.isEmpty then none
      else some (pre ++ owner ++ '/' :: repo)
    | _ => none
  else none

/-- `re.search` for the repository pattern: try each start position from the
left, returning the leftmost match. -/
def searchRepo (pre : List Char) : List Char → Option (List Char)
  | [] => none
  | c :: rest =>
    match matchRepoAt pre (c :: rest) with
    | some r => some r
    | none => searchRepo pre rest

/-- `normalize_to_repo_root` (ref_fetch.py line 358): search for a GitHub
repository pattern first, then GitLab; `none` if neither matches. -/
def normalize_to_repo_root (url : List Char) : Option (List Char) :=
  match searchRepo "https://github.com/".data url with
  | some r => some r
  | none => searchRepo "https://gitlab.com/".data url

/-- No attempt of the anchored regex match succeeds at a position inside the
prefix `g` of the string `g ++ t`: these are exactly the start positions
`re.search` tries and discards before reaching the occurrence in `t`. -/
def noMatchWithin (pre : List Char) : List Char → List Char → Bool
  | [], _ => true
  | c :: g', t => (matchRepoAt pre (c :: (g' ++ t))).isNone && noMatchWithin pre g' t

/-- State of the choices file on disk, as distinguished by
`load_choices_cache`: missing file, a read error (`IOError`), bytes that are
not valid UTF-8 (on which `json.load` raises `UnicodeDecodeError` — a
`ValueError` that is neither a `json.JSONDecodeError` nor an `IOError`, so
neither `except` arm catches it), a JSON decode error, or a successfully
decoded mapping. -/
inductive ChoicesFile
  | absent
  | unreadable
  | undecodable
  | invalidJson
  | valid (entries : List (List Char × List Char))
deriving DecidableEq

/-- The exception that escapes `load_choices_cache`. -/
inductive LoadError
  | unicodeDecodeError
deriving DecidableEq

/-- `load_choices_cache` (ref_fetch.py line 31): an absent file, a read
failure (`IOError`) and a JSON decode failure all yield the empty mapping,
but a file whose bytes do not decode as UTF-8 makes `json.load` raise
`UnicodeDecodeError`, which neither `except` arm catches, so the exception
propagates (the `Except.error` result). -/
def load_choices_cache : ChoicesFile → Except LoadError (List (List Char × List Char))
  | .absent => .ok []
  | .unreadable => .ok []
  | .undecodable => .error .unicodeDecodeError
  | .invalidJson => .ok []
  | .valid entries => .ok entries

/-- Python dict lookup `cache[k]` / `k in cache` over the (unique-key)
association list modelling the choices dict. -/
def lookupChoice (k : List Char) : List (List Char × List Char) → Option (List Char)
  | [] => none
  | (k', v) :: rest => if k' = k then some v else lookupChoice k rest

/-- Python dict assignment `cache[k] = v`: replace an existing binding,
otherwise append (dicts preserve insertion order). -/
def insertChoice (k v : List Char) : List (List Char × List Char) → List (List Char × List Char)
  | [] => [(k, v)]
  | (k', v') :: rest => if k' = k then (k, v) :: rest else (k', v') :: insertChoice k v rest

/-- Key filter of the PyPI tier (ref_fetch.py line 194): the key contains
`source`, `repository` or `homepage` case-insensitively. -/
def matchKey (k : List Char) : Bool :=
  containsSub "source".data (lowerStr k) || containsSub "repository".data (lowerStr k)
    || containsSub "homepage".data (lowerStr k)

/-- The `for key, value in urls.items()` loop of `get_pypi_repo_url`
(ref_fetch.py lines 193-196): on the first entry whose key matches and whose
value is truthy and on a supported host, return the value's normalization
(even when that normalization is `none`); otherwise keep scanning. -/
def scanProjectUrls : List (List Char × List Char) → Option (List Char)
  | [] => none
  | (k, v) :: rest =>
    if matchKey k then
      if !v.isEmpty && is_git_repo v then normalize_to_repo_root v
      else scanProjectUrls rest
    else scanProjectUrls rest

/-- `get_pypi_repo_url` (ref_fetch.py line 183).  The outer `Option` is the
network/JSON-decoding outcome (`none` = `RequestException` or
`JSONDecodeError`, both caught and turned into no result); the inner `Option`
is the `project_urls` field (`none` = absent or null, which is falsy). -/
def get_pypi_repo_url :
    Option (Option (List (List Char × List Char))) → Option (List Char)
  | none => none
  | some none => none
  | some (some urls) => scanProjectUrls urls

/-- `get_npm_repo_url` (ref_fetch.py line 228).  The outer `Option` is the
network/JSON-decoding outcome; the inner `Option` is the `repository.url`
string when the `repository` field is a dict with a truthy `url` (all other
shapes of the field collapse to `none`, as the `isinstance`/truthiness guard
rejects them). -/
def get_npm_repo_url : Option (Option (List Char)) → Option (List Char)
  | none => none
  | some none => none
  | some (some u) =>
    let u1 := if "git+".data.isPrefixOf u then u.drop 4 else u
    let u2 := if ".git".data.isSuffixOf u1 then u1.take (u1.length - 4) else u1
    normalize_to_repo_root u2

/-- A scored web-search candidate (`{"url": ..., "score": ...}` in
`search_for_repo_url`). -/
structure Candidate where
  url : List Char
  score : Nat
deriving DecidableEq

/-- The result-processing loop of `search_for_repo_url` (ref_fetch.py lines
303-315): keep result URLs that pass `is_git_repo` and normalize, deduplicate
by canonical root against the `seen` accumulator (`unique_repos`), and score
each retained candidate against the raw result URL: +2 when the package name
occurs case-insensitively, +1 when the literal version string occurs. -/
def buildCandidates (name version : List Char) (seen : List (List Char)) :
    List (List Char) → List Candidate
  | [] => []
  | u :: rest =>
    if is_git_repo u then
      match normalize_to_repo_root u with
      | some root =>
        if root ∈ seen then buildCandidates name version seen rest
        else
          Candidate.mk root
              ((if containsSub (lowerStr name) (lowerStr u) then 2 else 0)
                + (if containsSub version u then 1 else 0))
            :: buildCandidates name version (root :: seen) rest
      | none => buildCandidates name version seen rest
    else buildCandidates name version seen rest

/-- `candidate_urls.sort(key=lambda x: x["score"], reverse=True)`: a stable
sort descending by score. -/
def sortCandidates (cands : List Candidate) : List Candidate :=
  cands.mergeSort fun a b => decide (b.score ≤ a.score)

/-- Observable outcome of the web-search tier: a Choice-Store hit, an
automatic selection (score threshold met, choice persisted), the interactive
prompt (with the list of options shown), or no result. -/
inductive SearchOutcome
  | cachedHit (url : List Char)
  | autoSelected (url : List Char)
  | prompted (options : List (List Char))
  | noResult
deriving DecidableEq

/-- `search_for_repo_url` (ref_fetch.py line 284) up to the point where
control either returns or blocks on the interactive prompt.  `results` is the
list of search-result URLs (`href` fields).  Returns the outcome together
with the resulting choices cache (updated exactly when a choice is
persisted). -/
def search_for_repo_url (name version : List Char)
    (cache : List (List Char × List Char)) (results : List (List Char)) :
    SearchOutcome × List (List Char × List Char) :=
  match lookupChoice name cache with
  | some u => (.cachedHit u, cache)
  | none =>
    match sortCandidates (buildCandidates name version [] results) with
    | [] => (.noResult, cache)
    | top :: rest =>
      if 3 ≤ top.score then
        (.autoSelected top.url, insertChoice name top.url cache)
      else
        (.prompted ((top :: rest).take 5 |>.map Candidate.url), cache)

/-- Specification-side description (spec section 4.2): first-seen
deduplication of a list of canonical roots against an accumulator of
already-seen roots. -/
def dedupFirstSeen (seen : List (List Char)) : List (List Char) → List (List Char)
  | [] => []
  | x :: xs =>
    if x ∈ seen then dedupFirstSeen seen xs else x :: dedupFirstSeen (x :: seen) xs

/-- Specification-side description (spec section 4.2): the canonical roots of
the result URLs that pass the supported-host filter and normalize. -/
def normRoots (results : List (List Char)) : List (List Char) :=
  (results.filter is_git_repo).filterMap normalize_to_repo_root

/-- State of an on-disk directory: absent, fully present, or partially
written (e.g. left behind by an interrupted or failed clone). -/
inductive DirState
  | absent
  | present
  | corrupt
deriving DecidableEq

/-- The filesystem slice one `clone_and_checkout` call touches: the snapshot
output directory and the mirror directory for the repository's cache key. -/
structure FS where
  output : DirState
  mirror : DirState
deriving DecidableEq

/-- Success/failure oracles for the git subprocesses one `clone_and_checkout`
call may run. -/
structure GitEnv where
  updateOk : Bool
  mirrorCloneOk : Bool
  localCloneOk : Bool
  checkoutOk : List Char → Bool

/-- Trace of the side-effecting operations `clone_and_checkout` performs. -/
inductive Op
  | remoteUpdate
  | mirrorClone
  | localClone
  | checkout (tag : List Char)
  | rmMirror
  | rmOutput
  | rmGitDir
deriving DecidableEq

/-- Result of one `clone_and_checkout` call (the Python function returns
`None` on every path; this records which path was taken). -/
inductive Outcome
  | skipped
  | cacheError
  | cloneError
  | checkedOut (tag : List Char)
  | keptDefaultBranch
deriving DecidableEq

/-- `clone_to_cache` (ref_fetch.py line 430): run `git clone --mirror`; a
failed clone may leave a partial directory, which the `except` arm removes
when it exists. -/
def clone_to_cache (e : GitEnv) (fs : FS) : FS × List Op :=
  if e.mirrorCloneOk then ({ fs with mirror := .present }, [.mirrorClone])
  else
    let fs1 : FS := { fs with mirror := .corrupt }
    if fs1.mirror ≠ .absent then ({ fs1 with mirror := .absent }, [.mirrorClone, .rmMirror])
    else (fs1, [.mirrorClone])

/-- Step 1 of `clone_and_checkout` (ref_fetch.py lines 380-391): if a mirror
directory exists, `git remote update`; on failure remove the whole mirror and
re-run the initial clone; if no mirror exists, clone one. -/
def ensureMirror (e : GitEnv) (fs : FS) : FS × List Op :=
  if fs.mirror ≠ .absent then
    if e.updateOk then (fs, [.remoteUpdate])
    else
      let r := clone_to_cache e { fs with mirror := .absent }
      (r.1, .remoteUpdate :: .rmMirror :: r.2)
  else clone_to_cache e fs

/-- `version.replace(".", "_")`. -/
def dotsToUnderscores (v : List Char) : List Char :=
  v.map fun c => if c = '.' then '_' else c

/-- `tags_to_try` (ref_fetch.py line 410): the ordered list of tag-name
conventions derived from the version string. -/
def tags_to_try (v : List Char) : List (List Char) :=
  [v, 'v' :: v, "release-".data ++ v, "v_".data ++ dotsToUnderscores v]

/-- The checkout loop (ref_fetch.py lines 412-418): try each tag in order,
stopping at the first success.  Returns the list of tags attempted (in
order) and the successful tag, if any. -/
def attemptTags (ok : List Char → Bool) : List (List Char) → List (List Char) × Option (List Char)
  | [] => ([], none)
  | t :: ts =>
    if ok t then ([t], some t)
    else
      let r := attemptTags ok ts
      (t :: r.1, r.2)

/-- The checkout attempts recorded in an operation trace, in order. -/
def checkoutTagsOf (ops : List Op) : List (List Char) :=
  ops.filterMap fun op => match op with | .checkout t => some t | _ => none

/-- `clone_and_checkout` (ref_fetch.py line 366): skip when the output
directory exists; ensure a mirror (step 1); abort the package when no mirror
could be obtained; clone from the mirror into the output (cleaning up a
failed partial clone); try the version tags in order, leaving the default
branch checked out when none matches; finally remove the `.git` metadata
directory. -/
def clone_and_checkout (e : GitEnv) (version : List Char) (fs : FS) :
    Outcome × FS × List Op :=
  if fs.output ≠ .absent then (.skipped, fs, [])
  else
    let m := ensureMirror e fs
    if m.1.mirror = .absent then (.cacheError, m.1, m.2)
    else if e.localCloneOk then
      let fs2 : FS := { m.1 with output := .present }
      let a := attemptTags e.checkoutOk (tags_to_try version)
      match a.2 with
      | some t => (.checkedOut t, fs2, m.2 ++ .localClone :: a.1.map Op.checkout ++ [.rmGitDir])
      | none =>
        (.keptDefaultBranch, fs2, m.2 ++ .localClone :: a.1.map Op.checkout ++ [.rmGitDir])
    else (.cloneError, { m.1 with output := .absent }, m.2 ++ [.localClone, .rmOutput])

/-- The package ecosystems `main` accepts. -/
inductive Ecosystem
  | pip
  | npm
  | swift
deriving DecidableEq

/-- What the per-package resolution part of `main` produces: the repository
URL variable after the tier cascade, plus whether the registry tier and the
web-search tier were invoked. -/
structure ResolveOut where
  url : Option (List Char)
  registryCalled : Bool
  searchCalled : Bool
deriving DecidableEq

/-- The resolution-tier cascade of `main` (ref_fetch.py lines 484-496).
`registryAnswer` and `searchAnswer` are oracles for the value the registry
tier (`get_pypi_repo_url` / `get_npm_repo_url`) and the web-search tier
(`search_for_repo_url`) would return if invoked.  A declared URL that is
truthy and on a supported host is normalized and returned at once; otherwise
for pip/npm the registry is queried; a truthy URL short-circuits; otherwise
the web search runs only when the version is truthy.  For swift the
`repo_url` variable keeps its declared value in the fallback branch. -/
def resolveRepoUrl (eco : Ecosystem) (declared : Option (List Char))
    (version : Option (List Char)) (registryAnswer : Option (List Char))
    (searchAnswer : Option (List Char)) : ResolveOut :=
  if truthy declared && is_git_repo (declared.getD []) then
    { url := normalize_to_repo_root (declared.getD []), registryCalled := false,
      searchCalled := false }
  else
    let afterRegistry : Option (List Char) × Bool :=
      match eco with
      | .pip => (registryAnswer, true)
      | .npm => (registryAnswer, true)
      | .swift => (declared, false)
    if truthy afterRegistry.1 then
      { url := afterRegistry.1, registryCalled := afterRegistry.2, searchCalled := false }
    else if truthy version then
      { url := searchAnswer, registryCalled := afterRegistry.2, searchCalled := true }
    else
      { url := afterRegistry.1, registryCalled := afterRegistry.2, searchCalled := false }

/-- One dependency tuple handed to `main` by the enumeration collaborator. -/
structure PkgSpec where
  name : List Char
  version : Option (List Char)
  repoUrl : Option (List Char)

/-- Per-package environment: oracle answers for the two network tiers, the
git subprocess oracles, and the filesystem slice for this package's
repository and output path. -/
structure PkgEnv where
  registryAnswer : Option (List Char)
  searchAnswer : Option (List Char)
  git : GitEnv
  fs : FS

/-- Reported per-package result of the `main` loop body (ref_fetch.py lines
498-504): a materialization outcome, or one of the two per-package error
reports. -/
inductive PkgResult
  | fetched (o : Outcome)
  | noUrl
  | noVersion
deriving DecidableEq

/-- The body of `main`'s per-package loop: resolve, then materialize when
both a repository URL and a version are available, else report the missing
piece.  Always returns (no exception escapes the body). -/
def processOne (eco : Ecosystem) (env : PkgEnv) (p : PkgSpec) : PkgResult :=
  let r := resolveRepoUrl eco p.repoUrl p.version env.registryAnswer env.searchAnswer
  if truthy r.url && truthy p.version then
    .fetched (clone_and_checkout env.git (p.version.getD []) env.fs).1
  else if !truthy r.url then .noUrl
  else .noVersion

/-- `main`'s loop over the enumerated packages: every package is processed,
one after the other. -/
def processPackages (eco : Ecosystem) (envs : PkgSpec → PkgEnv) (ps : List PkgSpec) :
    List (PkgSpec × PkgResult) :=
  ps.map fun p => (p, processOne eco (envs p) p)

/-- Exit behaviour of `main` (ref_fetch.py lines 453-477 and fall-through):
`sys.exit(1)` when the project path is not a directory; `sys.exit(0)` when no
packages were found; otherwise process every package and fall off the end of
`main` (exit status 0). -/
def runMain (validDir : Bool) (eco : Ecosystem) (ps : List PkgSpec)
    (envs : PkgSpec → PkgEnv) : Nat × List (PkgSpec × PkgResult) :=
  if !validDir then (1, [])
  else if ps.isEmpty then (0, [])
  else (0, processPackages eco envs ps)

end RefFetch

namespace RefFetch

example : normalize_to_repo_root "https://github.com/psf/requests/blob/main/setup.py".data
    = some "https://github.com/psf/requests".data := by decide

example : normalize_to_repo_root "https://github.com/a/b.git".data
    = some "https://github.com/a/b.git".data := by decide

example : normalize_to_repo_root "git+https://gitlab.com/a/b/x".data
    = some "https://gitlab.com/a/b".data := by decide

example : normalize_to_repo_root "https://bitbucket.org/a/b".data = none := by decide

example : normalize_to_repo_root "http://github.com/a/b".data = none := by decide

example : is_git_repo "git@github.com:a/b.git".data = true := by decide

example : normalize_to_repo_root "git@github.com:a/b.git".data = none := by decide

/-! ### Helper lemmas about the normalizer -/

theorem takeWhile_append_cons {α : Type} (q : α → Bool) (xs : List α) (y : α) (ys : List α)
    (hxs : ∀ x ∈ xs, q x = true) (hy : q y = false) :
    (xs ++ y :: ys).takeWhile q = xs := by
  induction xs with
  | nil => simp [List.takeWhile_cons, hy]
  | cons a as ih =>
    have ha : q a = true := hxs a (by simp)
    simp only [List.cons_append, List.takeWhile_cons, ha, if_true]
    rw [ih fun x hx => hxs x (by simp [hx])]

theorem dropWhile_append_cons {α : Type} (q : α → Bool) (xs : List α) (y : α) (ys : List α)
    (hxs : ∀ x ∈ xs, q x = true) (hy : q y = false) :
    (xs ++ y :: ys).dropWhile q = y :: ys := by
  induction xs with
  | nil => simp [List.dropWhile_cons, hy]
  | cons a as ih =>
    have ha : q a = true := hxs a (by simp)
    simp only [List.cons_append, List.dropWhile_cons, ha, if_true]
    exact ih fun x hx => hxs x (by simp [hx])

theorem isPrefixOf_append_self (pre t : List Char) : pre.isPrefixOf (pre ++ t) = true := by
  induction pre with
  | nil => simp [List.isPrefixOf]
  | cons a as ih => simp [List.isPrefixOf, ih]

theorem isPrefixOf_cons_ne {a b : Char} (h : (a == b) = false) (as bs : List Char) :
    (a :: as).isPrefixOf (b :: bs) = false := by
  simp [List.isPrefixOf, h]

theorem matchRepoAt_none_of_missing_pre (pre s : List Char)
    (h : pre.isPrefixOf s = false) : matchRepoAt pre s = none := by
  simp [matchRepoAt, h]

theorem searchRepo_cons_of_no_match (pre : List Char) (c : Char) (s : List Char)
    (h : matchRepoAt pre (c :: s) = none) : searchRepo pre (c :: s) = searchRepo pre s := by
  simp [searchRepo, h]

/-- When the regex match fails at every start position inside the prefix
`g`, the search over `g ++ t` is the search over `t`. -/
theorem searchRepo_append_of_no_match (pre : List Char) :
    ∀ (g t : List Char), noMatchWithin pre g t = true →
    searchRepo pre (g ++ t) = searchRepo pre t := by
  intro g
  induction g with
  | nil => intro t _; rfl
  | cons c g' ih =>
    intro t h
    rw [noMatchWithin, Bool.and_eq_true] at h
    have h1 : matchRepoAt pre (c :: (g' ++ t)) = none :=
      Option.isNone_iff_eq_none.mp h.1
    rw [List.cons_append, searchRepo_cons_of_no_match pre c (g' ++ t) h1]
    exact ih t h.2

/-- The regex match fails at any start position whose first character is not
the `h` of `https://`. -/
theorem matchRepoAt_cons_ne_h (s : List Char) (c : Char) (hc : (c == 'h') = false) :
    matchRepoAt "https://github.com/".data (c :: s) = none := by
  refine matchRepoAt_none_of_missing_pre _ _ ?_
  have hc' : ('h' == c) = false := by
    rw [beq_eq_false_iff_ne] at hc ⊢
    exact fun h => hc h.symm
  exact isPrefixOf_cons_ne hc' _ _

/-- The anchored regex attempt succeeds on `pre ++ owner/repo<tail>` and
captures exactly through the second path segment. -/
theorem matchRepoAt_exact (pre o r p : List Char)
    (ho : o ≠ []) (ho' : ∀ x ∈ o, (x != '/') = true)
    (hr : r ≠ []) (hr' : ∀ x ∈ r, (x != '/') = true)
    (hp : p = [] ∨ ∃ p', p = '/' :: p') :
    matchRepoAt pre (pre ++ (o ++ '/' :: (r ++ p))) = some (pre ++ o ++ '/' :: r) := by
  have hpre := isPrefixOf_append_self pre (o ++ '/' :: (r ++ p))
  have hdrop : (pre ++ (o ++ '/' :: (r ++ p))).drop pre.length = o ++ '/' :: (r ++ p) :=
    List.drop_left pre _
  have htake : (o ++ '/' :: (r ++ p)).takeWhile (· != '/') = o :=
    takeWhile_append_cons _ o '/' (r ++ p) ho' (by decide)
  have hdropw : (o ++ '/' :: (r ++ p)).dropWhile (· != '/') = '/' :: (r ++ p) :=
    dropWhile_append_cons _ o '/' (r ++ p) ho' (by decide)
  have hrepo : (r ++ p).takeWhile (· != '/') = r := by
    rcases hp with h | ⟨p', h⟩
    · subst h
      rw [List.append_nil]
      exact List.takeWhile_eq_self_iff.mpr hr'
    · subst h
      exact takeWhile_append_cons _ r '/' p' hr' (by decide)
  simp only [matchRepoAt, hpre, if_true, hdrop, htake, hdropw, hrepo]
  simp [List.isEmpty_iff, ho, hr, List.append_assoc]

theorem searchRepo_append_match (pre t x : List Char) (hne : pre ≠ [])
    (hm : matchRepoAt pre (pre ++ t) = some x) :
    searchRepo pre (pre ++ t) = some x := by
  cases pre with
  | nil => exact absurd rfl hne
  | cons c cs =>
    rw [List.cons_append] at hm ⊢
    simp [searchRepo, hm]

theorem searchRepo_eq_none_of_not_contains (pre : List Char) :
    ∀ s, containsSub pre s = false → searchRepo pre s = none := by
  intro s
  induction s with
  | nil => intro _; rfl
  | cons c rest ih =>
    intro h
    rw [containsSub, Bool.or_eq_false_iff] at h
    rw [searchRepo_cons_of_no_match pre c rest (matchRepoAt_none_of_missing_pre _ _ h.1)]
    exact ih h.2

/-! ### C3: the URL normalizer -/

/-- C3 (counterexample to the claim as stated): `normalize_to_repo_root` does
not strip a `.git` suffix — the repo path segment is kept whole, so the
result is not the canonical `https://host/owner/repo` root the claim
demands; and a URL containing `github.com/<owner>/<repo>` behind a scheme
other than `https://` yields none rather than being reduced. -/
theorem claim_C3_counterexample :
    normalize_to_repo_root "https://github.com/a/b.git".data
        = some "https://github.com/a/b.git".data
      ∧ "https://github.com/a/b.git".data ≠ "https://github.com/a/b".data
      ∧ normalize_to_repo_root "http://github.com/a/b".data = none := by
  exact ⟨by decide, by decide, by decide⟩

/-- C3 (amended): `normalize_to_repo_root` reduces any URL in which
`https://github.com/<owner>/<repo>` occurs at any position — after an
arbitrary preceding prefix `g` (a `git+` marker, a redirect wrapper, or
nothing at all), where owner and repo are nonempty slash-free segments, the
repo segment is followed by a slash or the end of the string, and no regex
match starts earlier (inside `g`; `re.search` returns the leftmost match) —
to exactly the matched prefix: deep links are truncated after the second
path segment, but a `.git` suffix is part of the repo segment and retained.
Likewise for `https://gitlab.com/<owner>/<repo>` when no GitHub pattern
occurs anywhere in the string.  A literal `git+` prefix in particular is
skipped over by the search.  Any URL containing neither
`https://github.com/` nor `https://gitlab.com/` yields none. -/
theorem claim_C3_normalizer :
    (∀ g o r p, o ≠ [] → o.all (· != '/') = true → r ≠ [] → r.all (· != '/') = true →
      (p = [] ∨ ∃ p', p = '/' :: p') →
      noMatchWithin "https://github.com/".data g
          ("https://github.com/".data ++ (o ++ '/' :: (r ++ p))) = true →
      normalize_to_repo_root (g ++ ("https://github.com/".data ++ (o ++ '/' :: (r ++ p))))
        = some ("https://github.com/".data ++ o ++ '/' :: r))
  ∧ (∀ g o r p, o ≠ [] → o.all (· != '/') = true → r ≠ [] → r.all (· != '/') = true →
      (p = [] ∨ ∃ p', p = '/' :: p') →
      containsSub "https://github.com/".data
          (g ++ ("https://gitlab.com/".data ++ (o ++ '/' :: (r ++ p)))) = false →
      noMatchWithin "https://gitlab.com/".data g
          ("https://gitlab.com/".data ++ (o ++ '/' :: (r ++ p))) = true →
      normalize_to_repo_root (g ++ ("https://gitlab.com/".data ++ (o ++ '/' :: (r ++ p))))
        = some ("https://gitlab.com/".data ++ o ++ '/' :: r))
  ∧ (∀ o r p, o ≠ [] → o.all (· != '/') = true → r ≠ [] → r.all (· != '/') = true →
      (p = [] ∨ ∃ p', p = '/' :: p') →
      normalize_to_repo_root ("git+".data ++ ("https://github.com/".data ++ (o ++ '/' :: (r ++ p))))
        = some ("https://github.com/".data ++ o ++ '/' :: r))
  ∧ (∀ url, containsSub "https://github.com/".data url = false →
      containsSub "https://gitlab.com/".data url = false →
      normalize_to_repo_root url = none) := by
  have hanywhere : ∀ g o r p, o ≠ [] → o.all (· != '/') = true → r ≠ [] →
      r.all (· != '/') = true → (p = [] ∨ ∃ p', p = '/' :: p') →
      noMatchWithin "https://github.com/".data g
          ("https://github.com/".data ++ (o ++ '/' :: (r ++ p))) = true →
      normalize_to_repo_root (g ++ ("https://github.com/".data ++ (o ++ '/' :: (r ++ p))))
        = some ("https://github.com/".data ++ o ++ '/' :: r) := by
    intro g o r p ho ho' hr hr' hp hnm
    rw [normalize_to_repo_root, searchRepo_append_of_no_match _ g _ hnm,
      searchRepo_append_match _ _ _ (by decide)
        (matchRepoAt_exact _ o r p ho (List.all_eq_true.mp ho') hr
          (List.all_eq_true.mp hr') hp)]
  refine ⟨hanywhere, ?_, ?_, ?_⟩
  · intro g o r p ho ho' hr hr' hp hgh hnm
    rw [normalize_to_repo_root, searchRepo_eq_none_of_not_contains _ _ hgh,
      searchRepo_append_of_no_match _ g _ hnm,
      searchRepo_append_match _ _ _ (by decide)
        (matchRepoAt_exact _ o r p ho (List.all_eq_true.mp ho') hr
          (List.all_eq_true.mp hr') hp)]
  · intro o r p ho ho' hr hr' hp
    refine hanywhere "git+".data o r p ho ho' hr hr' hp ?_
    rw [show ("git+".data : List Char) = 'g' :: 'i' :: 't' :: '+' :: [] from rfl]
    simp only [noMatchWithin, List.nil_append, List.cons_append, Bool.and_eq_true,
      Option.isNone_iff_eq_none]
    exact ⟨matchRepoAt_cons_ne_h _ 'g' (by decide),
      ⟨matchRepoAt_cons_ne_h _ 'i' (by decide),
        ⟨matchRepoAt_cons_ne_h _ 't' (by decide),
          ⟨matchRepoAt_cons_ne_h _ '+' (by decide), trivial⟩⟩⟩⟩
  · intro url h1 h2
    rw [normalize_to_repo_root, searchRepo_eq_none_of_not_contains _ _ h1,
      searchRepo_eq_none_of_not_contains _ _ h2]

/-- Concrete instantiation of `claim_C3_normalizer`: a redirect-style search
result wrapping a GitHub deep link is reduced to the repository root (the
pattern sits mid-string, after the redirect prefix), and a URL on an
unsupported host yields none. -/
theorem claim_C3_witness :
    normalize_to_repo_root
        ("https://www.google.com/url?q=".data
          ++ ("https://github.com/".data
            ++ ("psf".data ++ '/' :: ("requests".data ++ "/blob/main/setup.py".data))))
        = some ("https://github.com/".data ++ "psf".data ++ '/' :: "requests".data)
      ∧ normalize_to_repo_root "https://bitbucket.org/owner/repo".data = none := by
  constructor
  · exact claim_C3_normalizer.1 "https://www.google.com/url?q=".data "psf".data
      "requests".data "/blob/main/setup.py".data
      (by decide) (by decide) (by decide) (by decide)
      (Or.inr ⟨"blob/main/setup.py".data, rfl⟩) (by decide)
  · exact claim_C3_normalizer.2.2.2 "https://bitbucket.org/owner/repo".data (by decide) (by decide)

/-! ### C1: the declared-URL tier -/

/-- C1: when a dependency's declared repository URL is present (truthy) and
on a supported host, the resolution cascade of `main` returns that URL's
normalization immediately, and neither the registry tier nor the web-search
tier is invoked (no network call is made for resolution). -/
theorem claim_C1_declared_tier (eco : Ecosystem) (u : List Char)
    (version registryAnswer searchAnswer : Option (List Char))
    (hne : u ≠ []) (hgit : is_git_repo u = true) :
    resolveRepoUrl eco (some u) version registryAnswer searchAnswer
      = { url := normalize_to_repo_root u, registryCalled := false,
          searchCalled := false } := by
  simp [resolveRepoUrl, truthy, hgit, List.isEmpty_iff, hne]

/-- Concrete instantiation of `claim_C1_declared_tier`: a declared GitHub
deep link is normalized and returned with both fallback tiers uninvoked,
ignoring the oracle answers those tiers would have produced. -/
theorem claim_C1_witness :
    resolveRepoUrl .pip (some "https://github.com/psf/requests/tree/main".data)
        (some "2.31.0".data) (some "https://gitlab.com/wrong/wrong".data)
        (some "https://github.com/other/other".data)
      = { url := some "https://github.com/psf/requests".data, registryCalled := false,
          searchCalled := false } := by
  rw [claim_C1_declared_tier .pip "https://github.com/psf/requests/tree/main".data
    (some "2.31.0".data) (some "https://gitlab.com/wrong/wrong".data)
    (some "https://github.com/other/other".data) (by decide) (by decide)]
  decide

/-! ### Helper lemmas about the materializer -/

theorem attemptTags_spec (ok : List Char → Bool) (tags : List (List Char)) :
    (attemptTags ok tags).1
        = tags.takeWhile (fun t => !ok t) ++ (attemptTags ok tags).2.toList
      ∧ (∀ t, (attemptTags ok tags).2 = some t → ok t = true)
      ∧ ((attemptTags ok tags).2 = none → ∀ t ∈ tags, ok t = false) := by
  induction tags with
  | nil => simp [attemptTags]
  | cons t ts ih =>
    by_cases h : ok t
    · simp [attemptTags, h]
    · have hf : ok t = false := by simpa using h
      refine ⟨?_, ?_, ?_⟩
      · simp [attemptTags, hf, ih.1]
      · intro t' ht'
        simp only [attemptTags, hf, Bool.false_eq_true, if_false] at ht'
        exact ih.2.1 t' ht'
      · intro hnone t' ht'
        simp only [attemptTags, hf, Bool.false_eq_true, if_false] at hnone
        rcases List.mem_cons.mp ht' with h' | h'
        · rw [h']; exact hf
        · exact ih.2.2 hnone t' h'

theorem checkoutTagsOf_clone_to_cache (e : GitEnv) (fs : FS) :
    checkoutTagsOf (clone_to_cache e fs).2 = [] := by
  rw [clone_to_cache]
  split_ifs <;> rfl

theorem checkoutTagsOf_ensureMirror (e : GitEnv) (fs : FS) :
    checkoutTagsOf (ensureMirror e fs).2 = [] := by
  rw [ensureMirror]
  split_ifs with h1 h2
  · rfl
  · show checkoutTagsOf (Op.remoteUpdate :: Op.rmMirror :: (clone_to_cache e _).2) = []
    simp only [checkoutTagsOf, List.filterMap_cons]
    exact checkoutTagsOf_clone_to_cache e _
  · exact checkoutTagsOf_clone_to_cache e fs

theorem checkoutTagsOf_append (xs ys : List Op) :
    checkoutTagsOf (xs ++ ys) = checkoutTagsOf xs ++ checkoutTagsOf ys := by
  simp [checkoutTagsOf, List.filterMap_append]

theorem checkoutTagsOf_cons_localClone (xs : List Op) :
    checkoutTagsOf (Op.localClone :: xs) = checkoutTagsOf xs := rfl

theorem checkoutTagsOf_rmGitDir : checkoutTagsOf [Op.rmGitDir] = [] := rfl

theorem checkoutTagsOf_map_checkout (ts : List (List Char)) :
    checkoutTagsOf (ts.map Op.checkout) = ts := by
  induction ts with
  | nil => rfl
  | cons t ts ih => simp only [List.map_cons, checkoutTagsOf, List.filterMap_cons] at ih ⊢; rw [ih]

/-- The success path of `clone_and_checkout`: output directory absent, a
mirror obtained, local clone succeeded. -/
theorem clone_and_checkout_success_path (e : GitEnv) (v : List Char) (fs : FS)
    (hout : fs.output = .absent)
    (hmir : (ensureMirror e fs).1.mirror ≠ .absent)
    (hclone : e.localCloneOk = true) :
    clone_and_checkout e v fs
      = ((match (attemptTags e.checkoutOk (tags_to_try v)).2 with
          | some t => Outcome.checkedOut t
          | none => Outcome.keptDefaultBranch),
        { (ensureMirror e fs).1 with output := .present },
        (ensureMirror e fs).2
          ++ .localClone :: (attemptTags e.checkoutOk (tags_to_try v)).1.map Op.checkout
          ++ [.rmGitDir]) := by
  rw [clone_and_checkout]
  rw [if_neg (by simp [hout])]
  rw [if_neg hmir, if_pos hclone]
  cases h : (attemptTags e.checkoutOk (tags_to_try v)).2 <;> simp [h]

/-! ### C4: tag fallback order -/

/-- C4: on a materialization that reaches the checkout step (output directory
absent, mirror obtained, local clone succeeded) with version string `v`, the
checkout attempts recorded in the trace are exactly the prefix of
`[v, "v"+v, "release-"+v, "v_"+v-with-dots-replaced]` up to and including the
first tag that checks out; on a success the outcome records that tag, and
when no tag matches every convention failed, the outcome is the soft
`keptDefaultBranch` warning and the output directory is still present
(kept). -/
theorem claim_C4_tag_order (e : GitEnv) (v : List Char) (fs : FS)
    (hout : fs.output = .absent)
    (hmir : (ensureMirror e fs).1.mirror ≠ .absent)
    (hclone : e.localCloneOk = true) :
    checkoutTagsOf (clone_and_checkout e v fs).2.2
        = (attemptTags e.checkoutOk
            [v, 'v' :: v, "release-".data ++ v, "v_".data ++ dotsToUnderscores v]).1
      ∧ (attemptTags e.checkoutOk (tags_to_try v)).1
          = (tags_to_try v).takeWhile (fun t => !e.checkoutOk t)
              ++ (attemptTags e.checkoutOk (tags_to_try v)).2.toList
      ∧ (∀ t, (attemptTags e.checkoutOk (tags_to_try v)).2 = some t →
          e.checkoutOk t = true ∧ (clone_and_checkout e v fs).1 = .checkedOut t)
      ∧ ((attemptTags e.checkoutOk (tags_to_try v)).2 = none →
          (∀ t ∈ tags_to_try v, e.checkoutOk t = false)
            ∧ (clone_and_checkout e v fs).1 = .keptDefaultBranch
            ∧ (clone_and_checkout e v fs).2.1.output = .present) := by
  have hrun := clone_and_checkout_success_path e v fs hout hmir hclone
  have hspec := attemptTags_spec e.checkoutOk (tags_to_try v)
  refine ⟨?_, hspec.1, ?_, ?_⟩
  · rw [hrun]
    simp only [checkoutTagsOf_append, checkoutTagsOf_ensureMirror,
      checkoutTagsOf_cons_localClone, checkoutTagsOf_map_checkout, checkoutTagsOf_rmGitDir,
      List.nil_append, List.append_nil]
    simp [tags_to_try]
  · intro t ht
    refine ⟨hspec.2.1 t ht, ?_⟩
    rw [hrun, ht]
  · intro hnone
    refine ⟨hspec.2.2 hnone, ?_, ?_⟩
    · rw [hrun, hnone]
    · rw [hrun, hnone]

/-- Concrete instantiation of `claim_C4_tag_order`: with only the tag
`v1.2.3` present, the attempts are `1.2.3` then `v1.2.3`, in that order, and
nothing after the first success. -/
theorem claim_C4_witness :
    checkoutTagsOf (clone_and_checkout
        ⟨true, true, true, fun t => t == "v1.2.3".data⟩ "1.2.3".data
        ⟨.absent, .absent⟩).2.2
      = ["1.2.3".data, "v1.2.3".data] := by
  have h := claim_C4_tag_order ⟨true, true, true, fun t => t == "v1.2.3".data⟩
    "1.2.3".data ⟨.absent, .absent⟩ rfl (by decide) rfl
  rw [h.1]
  decide

/-! ### C5: idempotent short-circuit on the output path -/

theorem clone_and_checkout_output_present (e : GitEnv) (v : List Char) (fs : FS) :
    ∀ t, ((clone_and_checkout e v fs).1 = .checkedOut t
        ∨ (clone_and_checkout e v fs).1 = .keptDefaultBranch) →
    (clone_and_checkout e v fs).2.1.output = .present := by
  intro t h
  simp only [clone_and_checkout] at h ⊢
  split_ifs at h ⊢ with h1 h2 h3
  · rcases h with h | h <;> simp at h
  · rcases h with h | h <;> simp at h
  · rcases ha : (attemptTags e.checkoutOk (tags_to_try v)).2 with _ | t' <;> simp [ha]
  · rcases h with h | h <;> simp at h

/-- C5: when the output directory already exists (in any state), a
`clone_and_checkout` call returns the skip outcome immediately, performs no
operation at all and leaves the filesystem untouched; consequently a second
call after a successful materialization (tag checked out or default branch
kept) is a no-op returning the skip outcome. -/
theorem claim_C5_idempotent :
    (∀ (e : GitEnv) (v : List Char) (fs : FS), fs.output ≠ .absent →
      clone_and_checkout e v fs = (.skipped, fs, []))
  ∧ (∀ (e e' : GitEnv) (v v' : List Char) (fs : FS) (t : List Char),
      ((clone_and_checkout e v fs).1 = .checkedOut t
        ∨ (clone_and_checkout e v fs).1 = .keptDefaultBranch) →
      clone_and_checkout e' v' (clone_and_checkout e v fs).2.1
        = (.skipped, (clone_and_checkout e v fs).2.1, [])) := by
  have hskip : ∀ (e : GitEnv) (v : List Char) (fs : FS), fs.output ≠ .absent →
      clone_and_checkout e v fs = (.skipped, fs, []) := by
    intro e v fs h
    rw [clone_and_checkout, if_pos h]
  refine ⟨hskip, ?_⟩
  intro e e' v v' fs t h
  have hp := clone_and_checkout_output_present e v fs t h
  exact hskip e' v' _ (by rw [hp]; simp)

/-- Concrete instantiation of `claim_C5_idempotent`: with the output
directory present, the call is a no-op even though every git operation
oracle would have succeeded. -/
theorem claim_C5_witness :
    clone_and_checkout ⟨true, true, true, fun _ => true⟩ "2.0".data
        ⟨.present, .absent⟩
      = (.skipped, ⟨.present, .absent⟩, []) := by
  exact claim_C5_idempotent.1 ⟨true, true, true, fun _ => true⟩ "2.0".data
    ⟨.present, .absent⟩ (by simp)

/-! ### C6: the mirror-cache integrity invariant -/

theorem clone_to_cache_mirror_cases (e : GitEnv) (fs : FS) :
    (clone_to_cache e fs).1.mirror = .present ∨ (clone_to_cache e fs).1.mirror = .absent := by
  rw [clone_to_cache]
  split_ifs <;> simp_all

theorem ensureMirror_no_corrupt (e : GitEnv) (fs : FS) (h : fs.mirror ≠ .corrupt) :
    (ensureMirror e fs).1.mirror ≠ .corrupt := by
  rw [ensureMirror]
  split_ifs with h1 h2
  · exact h
  · rcases clone_to_cache_mirror_cases e { fs with mirror := .absent } with hc | hc <;>
      simp [hc]
  · rcases clone_to_cache_mirror_cases e fs with hc | hc <;> simp [hc]

/-- C6: (a) a filesystem state whose mirror is not partially written keeps
that property across any `clone_and_checkout` run; (b) a failed mirror clone
always deletes the partial directory, leaving the mirror absent; (c) a
failed in-place fetch of an existing mirror first removes the mirror and
then attempts exactly one re-clone; (d) when that re-clone also fails the
outcome is the per-package cache error, with the mirror absent; and (e) the
main loop processes every remaining package regardless of the current
package's result. -/
theorem claim_C6_mirror_invariant :
    (∀ (e : GitEnv) (v : List Char) (fs : FS), fs.mirror ≠ .corrupt →
      (clone_and_checkout e v fs).2.1.mirror ≠ .corrupt)
  ∧ (∀ (e : GitEnv) (fs : FS), e.mirrorCloneOk = false →
      (clone_to_cache e fs).1.mirror = .absent
        ∧ (clone_to_cache e fs).2 = [.mirrorClone, .rmMirror])
  ∧ (∀ (e : GitEnv) (fs : FS), fs.mirror ≠ .absent → e.updateOk = false →
      (ensureMirror e fs).2.countP (fun op => decide (op = Op.mirrorClone)) = 1
        ∧ (ensureMirror e fs).2.take 2 = [Op.remoteUpdate, Op.rmMirror])
  ∧ (∀ (e : GitEnv) (v : List Char) (fs : FS), fs.output = .absent →
      fs.mirror ≠ .absent → e.updateOk = false → e.mirrorCloneOk = false →
      (clone_and_checkout e v fs).1 = .cacheError
        ∧ (clone_and_checkout e v fs).2.1.mirror = .absent)
  ∧ (∀ (eco : Ecosystem) (envs : PkgSpec → PkgEnv) (p : PkgSpec) (ps : List PkgSpec),
      processPackages eco envs (p :: ps)
        = (p, processOne eco (envs p) p) :: processPackages eco envs ps) := by
  refine ⟨?_, ?_, ?_, ?_, ?_⟩
  · intro e v fs h
    simp only [clone_and_checkout]
    split_ifs with h1 h2 h3
    · exact h
    · rw [h2]; simp
    · rcases ha : (attemptTags e.checkoutOk (tags_to_try v)).2 with _ | t' <;>
        simp [ha] <;> exact ensureMirror_no_corrupt e fs h
    · exact ensureMirror_no_corrupt e fs h
  · intro e fs hc
    rw [clone_to_cache, if_neg (by simp [hc])]
    simp
  · intro e fs hmir hupd
    rw [ensureMirror, if_pos hmir, if_neg (by simp [hupd]), clone_to_cache]
    split_ifs <;> simp [List.countP_cons, List.countP_nil]
  · intro e v fs hout hmir hupd hclone
    have hm : (ensureMirror e fs).1.mirror = .absent := by
      rw [ensureMirror, if_pos hmir, if_neg (by simp [hupd]), clone_to_cache,
        if_neg (by simp [hclone])]
      simp
    rw [clone_and_checkout, if_neg (by simp [hout]), if_pos hm]
    exact ⟨rfl, hm⟩
  · intro eco envs p ps
    simp [processPackages]

/-- Concrete instantiation of `claim_C6_mirror_invariant` part (d): stale
mirror, failed fetch and failed re-clone yield the per-package cache error
with the mirror directory absent. -/
theorem claim_C6_witness :
    (clone_and_checkout ⟨false, false, true, fun _ => true⟩ "1.0".data
        ⟨.absent, .present⟩).1 = .cacheError
      ∧ (clone_and_checkout ⟨false, false, true, fun _ => true⟩ "1.0".data
          ⟨.absent, .present⟩).2.1.mirror = .absent := by
  exact claim_C6_mirror_invariant.2.2.2.1 ⟨false, false, true, fun _ => true⟩
    "1.0".data ⟨.absent, .present⟩ rfl (by simp) rfl rfl

/-! ### C9: process exit behaviour -/

/-- C9 (counterexample to the claim as stated): with a valid working
directory and an empty package list, `main` runs `sys.exit(0)` — the exit
status is zero, not the non-zero status the claim demands for "no
dependencies could be found to process". -/
theorem claim_C9_counterexample :
    (runMain true .pip []
        (fun _ => ⟨none, none, ⟨true, true, true, fun _ => true⟩, ⟨.absent, .absent⟩⟩)).1
      = 0 := rfl

/-- C9 (amended): the process exits non-zero (status 1) exactly when the
working directory is invalid; when no dependencies are found it prints a
notice and exits zero; otherwise it processes every package and exits zero
regardless of the per-package results, so per-package failures are reported
but never escalate to a non-zero exit. -/
theorem claim_C9_exit_codes :
    (∀ (eco : Ecosystem) (ps : List PkgSpec) (envs : PkgSpec → PkgEnv),
      (runMain false eco ps envs).1 = 1)
  ∧ (∀ (eco : Ecosystem) (envs : PkgSpec → PkgEnv),
      (runMain true eco [] envs).1 = 0)
  ∧ (∀ (eco : Ecosystem) (ps : List PkgSpec) (envs : PkgSpec → PkgEnv), ps ≠ [] →
      (runMain true eco ps envs).1 = 0
        ∧ (runMain true eco ps envs).2 = processPackages eco envs ps) := by
  refine ⟨fun eco ps envs => rfl, fun eco envs => rfl, ?_⟩
  intro eco ps envs hne
  rw [runMain]
  simp [List.isEmpty_iff, hne]

/-- Concrete instantiation of `claim_C9_exit_codes`: one package whose every
resolution tier fails still leaves the exit status at zero. -/
theorem claim_C9_witness :
    (runMain true .npm [⟨"left-pad".data, some "1.3.0".data, none⟩]
        (fun _ => ⟨none, none, ⟨false, false, false, fun _ => false⟩, ⟨.absent, .absent⟩⟩)).1
      = 0 := by
  exact (claim_C9_exit_codes.2.2 .npm [⟨"left-pad".data, some "1.3.0".data, none⟩]
    (fun _ => ⟨none, none, ⟨false, false, false, fun _ => false⟩, ⟨.absent, .absent⟩⟩)
    (by simp)).1

/-! ### C10: loading the Choice Store -/

/-- C10 (counterexample to the claim as stated): loading can raise — a
choices file whose bytes are not valid UTF-8 makes `json.load` raise
`UnicodeDecodeError`, which is neither a `json.JSONDecodeError` nor an
`IOError`, so neither `except` arm of `load_choices_cache` catches it and
the exception propagates instead of the empty mapping being returned. -/
theorem claim_C10_counterexample :
    load_choices_cache .undecodable = .error .unicodeDecodeError
      ∧ ∀ entries, load_choices_cache .undecodable ≠ .ok entries := by
  exact ⟨rfl, fun entries h => Except.noConfusion h⟩

/-- C10 (amended): for an absent file, an unreadable file (`IOError`), or a
file containing invalid JSON, `load_choices_cache` returns the empty
mapping and the run proceeds as if no previous choices had been made; these
and a successfully decoded mapping are the only non-raising states — a file
whose bytes are not valid UTF-8 is the one state in which loading raises
(`UnicodeDecodeError`, caught by neither `except` arm). -/
theorem claim_C10_load_choices :
    load_choices_cache .absent = .ok []
      ∧ load_choices_cache .unreadable = .ok []
      ∧ load_choices_cache .invalidJson = .ok []
      ∧ load_choices_cache .undecodable = .error .unicodeDecodeError
      ∧ (∀ st : ChoicesFile, st ≠ .undecodable →
          ∃ entries, load_choices_cache st = .ok entries) := by
  refine ⟨rfl, rfl, rfl, rfl, ?_⟩
  intro st hst
  cases st with
  | absent => exact ⟨[], rfl⟩
  | unreadable => exact ⟨[], rfl⟩
  | undecodable => exact absurd rfl hst
  | invalidJson => exact ⟨[], rfl⟩
  | valid entries => exact ⟨entries, rfl⟩

/-- Concrete instantiation of `claim_C10_load_choices`: a decoded mapping
loads as itself without raising. -/
theorem claim_C10_witness :
    ∃ entries, load_choices_cache
        (.valid [("requests".data, "https://github.com/psf/requests".data)])
      = .ok entries := by
  exact claim_C10_load_choices.2.2.2.2
    (.valid [("requests".data, "https://github.com/psf/requests".data)]) (by decide)

/-! ### C7: the registry tier -/

/-- C7 (counterexample to the claim as stated): the PyPI scan stops at the
first matching-key field whose value is on a supported host and returns that
value's normalization even when normalization fails, so with
`Homepage = git@github.com:a/b` (supported host, unnormalizable) followed by
`Source = https://github.com/a/b` (a perfectly good supported-host URL) the
tier returns no result instead of the first supported-host URL found. -/
theorem claim_C7_counterexample :
    get_pypi_repo_url (some (some
        [("Homepage".data, "git@github.com:a/b".data),
         ("Source".data, "https://github.com/a/b".data)])) = none
      ∧ matchKey "Homepage".data = true
      ∧ is_git_repo "git@github.com:a/b".data = true
      ∧ matchKey "Source".data = true
      ∧ is_git_repo "https://github.com/a/b".data = true
      ∧ normalize_to_repo_root "https://github.com/a/b".data
          = some "https://github.com/a/b".data := by
  exact ⟨by decide, by decide, by decide, by decide, by decide, by decide⟩

theorem isSuffixOf_append_self (p u : List Char) : p.isSuffixOf (u ++ p) = true := by
  simp [List.isSuffixOf, List.reverse_append, isPrefixOf_append_self]

/-- C7 (amended): the PyPI tier scans `project_urls` in order and returns
the normalization of the first entry whose key contains
source/repository/homepage case-insensitively and whose value is nonempty
and on a supported host, returning no result (without examining later
entries) when that normalization fails; when no entry qualifies it returns
no result; the npm tier reads only the `repository.url` field, strips a
`git+` prefix and a `.git` suffix, and returns its normalization; and in
both tiers a network failure or undecodable response is treated as no
result (the embedding is total: the caught exceptions are the `none`
response state). -/
theorem claim_C7_registry_tier :
    (∀ (pre : List (List Char × List Char)) (k v : List Char)
        (post : List (List Char × List Char)),
      (∀ e ∈ pre, matchKey e.1 = true → e.2 ≠ [] → is_git_repo e.2 = false) →
      matchKey k = true → v ≠ [] → is_git_repo v = true →
      get_pypi_repo_url (some (some (pre ++ (k, v) :: post)))
        = normalize_to_repo_root v)
  ∧ (∀ (urls : List (List Char × List Char)),
      (∀ e ∈ urls, matchKey e.1 = true → e.2 ≠ [] → is_git_repo e.2 = false) →
      get_pypi_repo_url (some (some urls)) = none)
  ∧ get_pypi_repo_url none = none
  ∧ get_npm_repo_url none = none
  ∧ (∀ u : List Char,
      get_npm_repo_url (some (some ("git+".data ++ (u ++ ".git".data))))
        = normalize_to_repo_root u) := by
  have hscan : ∀ (urls : List (List Char × List Char)),
      (∀ e ∈ urls, matchKey e.1 = true → e.2 ≠ [] → is_git_repo e.2 = false) →
      scanProjectUrls urls = none := by
    intro urls
    induction urls with
    | nil => intro _; rfl
    | cons e rest ih =>
      intro h
      obtain ⟨k, v⟩ := e
      rw [scanProjectUrls]
      by_cases hk : matchKey k
      · rw [if_pos hk]
        by_cases hv : v = []
        · rw [if_neg (by simp [hv])]
          exact ih fun e he => h e (List.mem_cons_of_mem _ he)
        · have hg : is_git_repo v = false := h (k, v) (List.mem_cons_self _ _) hk hv
          rw [if_neg (by simp [hg])]
          exact ih fun e he => h e (List.mem_cons_of_mem _ he)
      · rw [if_neg hk]
        exact ih fun e he => h e (List.mem_cons_of_mem _ he)
  refine ⟨?_, hscan, rfl, rfl, ?_⟩
  · intro pre k v post hpre hk hv hg
    show scanProjectUrls (pre ++ (k, v) :: post) = normalize_to_repo_root v
    induction pre with
    | nil =>
      rw [List.nil_append, scanProjectUrls, if_pos hk,
        if_pos (by simp [hg, List.isEmpty_iff, hv])]
    | cons e pre' ih =>
      obtain ⟨k', v'⟩ := e
      rw [List.cons_append, scanProjectUrls]
      have ih' := ih fun e he => hpre e (List.mem_cons_of_mem _ he)
      by_cases hk' : matchKey k'
      · rw [if_pos hk']
        by_cases hv' : v' = []
        · rw [if_neg (by simp [hv'])]
          exact ih'
        · have hg' : is_git_repo v' = false :=
            hpre (k', v') (List.mem_cons_self _ _) hk' hv'
          rw [if_neg (by simp [hg'])]
          exact ih'
      · rw [if_neg hk']
        exact ih'
  · intro u
    have h1 := isPrefixOf_append_self "git+".data (u ++ ".git".data)
    have h2 := isSuffixOf_append_self ".git".data u
    have hdrop : ("git+".data ++ (u ++ ".git".data)).drop 4 = u ++ ".git".data :=
      List.drop_left "git+".data (u ++ ".git".data)
    have hlen : (u ++ ".git".data).length - 4 = u.length := by
      simp [List.length_append]
    simp [get_npm_repo_url, h1, hdrop, h2, hlen, List.take_left]

/-- Concrete instantiation of `claim_C7_registry_tier`: a non-matching field
is skipped and the first matching supported-host field is normalized and
returned. -/
theorem claim_C7_witness :
    get_pypi_repo_url (some (some ([("License".data, "https://example.com/x".data)]
        ++ ("Source".data, "https://github.com/psf/requests".data) :: [])))
      = some "https://github.com/psf/requests".data := by
  rw [claim_C7_registry_tier.1 [("License".data, "https://example.com/x".data)]
    "Source".data "https://github.com/psf/requests".data [] (by decide) (by decide)
    (by decide) (by decide)]
  decide

/-! ### Helper lemmas about web-search candidate construction -/

theorem buildCandidates_map_url (name version : List Char) :
    ∀ (results : List (List Char)) (seen : List (List Char)),
    (buildCandidates name version seen results).map Candidate.url
      = dedupFirstSeen seen (normRoots results) := by
  intro results
  induction results with
  | nil => intro seen; rfl
  | cons u rest ih =>
    intro seen
    by_cases hg : is_git_repo u
    · cases hn : normalize_to_repo_root u with
      | none =>
        rw [buildCandidates]
        simp only [hg, if_true, hn]
        rw [ih seen]
        simp [normRoots, List.filter_cons, hg, List.filterMap_cons, hn]
      | some root =>
        by_cases hs : root ∈ seen
        · rw [buildCandidates]
          simp only [hg, if_true, hn, hs, if_true]
          rw [ih seen]
          simp [normRoots, List.filter_cons, hg, List.filterMap_cons, hn,
            dedupFirstSeen, hs]
        · rw [buildCandidates]
          simp only [hg, if_true, hn, hs, if_false]
          have h2 : (buildCandidates name version (root :: seen) rest).map Candidate.url
              = dedupFirstSeen (root :: seen) (normRoots rest) := ih (root :: seen)
          simp [normRoots, List.filter_cons, hg, List.filterMap_cons, hn,
            dedupFirstSeen, hs, h2, normRoots]
    · rw [buildCandidates]
      simp only [hg, Bool.false_eq_true, if_false]
      rw [ih seen]
      simp [normRoots, List.filter_cons, hg]

theorem dedupFirstSeen_nodup :
    ∀ (l seen : List (List Char)),
    (dedupFirstSeen seen l).Nodup ∧ ∀ x ∈ dedupFirstSeen seen l, x ∉ seen := by
  intro l
  induction l with
  | nil => intro seen; exact ⟨List.nodup_nil, by simp [dedupFirstSeen]⟩
  | cons x xs ih =>
    intro seen
    by_cases hs : x ∈ seen
    · rw [dedupFirstSeen, if_pos hs]
      exact ih seen
    · rw [dedupFirstSeen, if_neg hs]
      have h := ih (x :: seen)
      constructor
      · refine List.nodup_cons.mpr ⟨?_, h.1⟩
        intro hx
        exact h.2 x hx (List.mem_cons_self _ _)
      · intro y hy
        rcases List.mem_cons.mp hy with h' | h'
        · rw [h']; exact hs
        · intro hyseen
          exact h.2 y h' (List.mem_cons_of_mem _ hyseen)

theorem dedupFirstSeen_sublist :
    ∀ (l seen : List (List Char)), List.Sublist (dedupFirstSeen seen l) l := by
  intro l
  induction l with
  | nil => intro seen; simp [dedupFirstSeen]
  | cons x xs ih =>
    intro seen
    by_cases hs : x ∈ seen
    · rw [dedupFirstSeen, if_pos hs]
      exact (ih seen).trans (List.sublist_cons_self x xs)
    · rw [dedupFirstSeen, if_neg hs]
      exact (ih (x :: seen)).cons₂ x

theorem dedupFirstSeen_complete :
    ∀ (l seen : List (List Char)) (x : List Char), x ∈ l →
    x ∈ dedupFirstSeen seen l ∨ x ∈ seen := by
  intro l
  induction l with
  | nil => intro seen x hx; cases hx
  | cons y ys ih =>
    intro seen x hx
    by_cases hs : y ∈ seen
    · rw [dedupFirstSeen, if_pos hs]
      rcases List.mem_cons.mp hx with h' | h'
      · right; rw [h']; exact hs
      · exact ih seen x h'
    · rw [dedupFirstSeen, if_neg hs]
      rcases List.mem_cons.mp hx with h' | h'
      · left; rw [h']; exact List.mem_cons_self _ _
      · rcases ih (y :: seen) x h' with h'' | h''
        · left; exact List.mem_cons_of_mem _ h''
        · rcases List.mem_cons.mp h'' with h3 | h3
          · left; rw [h3]; exact List.mem_cons_self _ _
          · right; exact h3

/-! ### C8: web-search candidate construction -/

/-- C8 (counterexample to the claim as stated): the set of unique candidates
is not capped at 5 — six search results with six distinct canonical roots
produce six candidates (only the interactive prompt display is capped). -/
theorem claim_C8_counterexample :
    (buildCandidates "pkg".data "1.0".data []
        ["https://github.com/o1/r".data, "https://github.com/o2/r".data,
         "https://github.com/o3/r".data, "https://github.com/o4/r".data,
         "https://github.com/o5/r".data, "https://github.com/o6/r".data]).length = 6 := by
  decide

/-- C8 (amended): the candidate list is built from the result URLs that pass
the supported-host filter and normalize, deduplicated by canonical root in
first-seen order (its roots are exactly the first-seen deduplication of the
normalized filtered results: pairwise distinct, an order-preserving sublist
of them, and containing every such root); the candidate set itself is not
capped, but the interactive prompt presents at most 5 candidates. -/
theorem claim_C8_candidates :
    (∀ (name version : List Char) (results : List (List Char)),
      (buildCandidates name version [] results).map Candidate.url
        = dedupFirstSeen [] (normRoots results))
  ∧ (∀ (name version : List Char) (results : List (List Char)),
      ((buildCandidates name version [] results).map Candidate.url).Nodup)
  ∧ (∀ results : List (List Char),
      List.Sublist (dedupFirstSeen [] (normRoots results)) (normRoots results))
  ∧ (∀ (name version : List Char) (results : List (List Char)) (root : List Char),
      root ∈ normRoots results →
      root ∈ (buildCandidates name version [] results).map Candidate.url)
  ∧ (∀ (name version : List Char) (cache : List (List Char × List Char))
        (results : List (List Char)) (opts : List (List Char)),
      (search_for_repo_url name version cache results).1 = .prompted opts →
      opts.length ≤ 5) := by
  refine ⟨fun name version results => buildCandidates_map_url name version results [],
    ?_, fun results => dedupFirstSeen_sublist (normRoots results) [], ?_, ?_⟩
  · intro name version results
    rw [buildCandidates_map_url name version results []]
    exact (dedupFirstSeen_nodup (normRoots results) []).1
  · intro name version results root hroot
    rw [buildCandidates_map_url name version results []]
    rcases dedupFirstSeen_complete (normRoots results) [] root hroot with h | h
    · exact h
    · cases h
  · intro name version cache results opts h
    rw [search_for_repo_url] at h
    cases hc : lookupChoice name cache with
    | some u => rw [hc] at h; simp at h
    | none =>
      rw [hc] at h
      cases hs : sortCandidates (buildCandidates name version [] results) with
      | nil => rw [hs] at h; simp at h
      | cons top rest =>
        rw [hs] at h
        by_cases ht : 3 ≤ top.score
        · simp [ht] at h
        · simp [ht] at h
          subst h
          simp only [List.length_map, List.length_take, List.length_cons]
          omega

/-- Concrete instantiation of `claim_C8_candidates`: the canonical root of a
deep link that appears among the filtered, normalized results appears among
the candidate roots. -/
theorem claim_C8_witness :
    "https://github.com/aa/bb".data
      ∈ (buildCandidates "n".data "1".data []
          ["https://github.com/aa/bb/issues/3".data]).map Candidate.url := by
  exact claim_C8_candidates.2.2.2.1 "n".data "1".data
    ["https://github.com/aa/bb/issues/3".data] "https://github.com/aa/bb".data (by decide)

/-! ### Helper lemmas for web-search scoring and selection -/

theorem lookupChoice_insertChoice (k v : List Char) :
    ∀ cache, lookupChoice k (insertChoice k v cache) = some v := by
  intro cache
  induction cache with
  | nil => simp [insertChoice, lookupChoice]
  | cons e rest ih =>
    obtain ⟨k', v'⟩ := e
    by_cases h : k' = k
    · rw [insertChoice, if_pos h, lookupChoice, if_pos rfl]
    · rw [insertChoice, if_neg h, lookupChoice, if_neg h]
      exact ih

/-- A result URL that passes the filter, normalizes to a root not produced
by any earlier result, and is therefore not deduplicated away, contributes
its own scored candidate. -/
theorem buildCandidates_mem (name version u root : List Char)
    (post : List (List Char)) (hg : is_git_repo u = true)
    (hn : normalize_to_repo_root u = some root) :
    ∀ (pre : List (List Char)) (seen : List (List Char)), root ∉ seen →
    (∀ w ∈ pre, ∀ rootw, normalize_to_repo_root w = some rootw → rootw ≠ root) →
    Candidate.mk root
        ((if containsSub (lowerStr name) (lowerStr u) then 2 else 0)
          + (if containsSub version u then 1 else 0))
      ∈ buildCandidates name version seen (pre ++ u :: post) := by
  intro pre
  induction pre with
  | nil =>
    intro seen hseen _
    rw [List.nil_append, buildCandidates]
    simp only [hg, if_true, hn]
    rw [if_neg hseen]
    exact List.mem_cons_self _ _
  | cons w pre' ih =>
    intro seen hseen hpre
    rw [List.cons_append, buildCandidates]
    have hpre' : ∀ w' ∈ pre', ∀ rootw, normalize_to_repo_root w' = some rootw → rootw ≠ root :=
      fun w' hw' => hpre w' (List.mem_cons_of_mem _ hw')
    by_cases hgw : is_git_repo w
    · cases hnw : normalize_to_repo_root w with
      | none =>
        simp only [hgw, if_true, hnw]
        exact ih seen hseen hpre'
      | some rootw =>
        by_cases hmem : rootw ∈ seen
        · simp only [hgw, if_true, hnw, hmem, if_true]
          exact ih seen hseen hpre'
        · simp only [hgw, if_true, hnw, hmem, if_false]
          refine List.mem_cons_of_mem _ (ih (rootw :: seen) ?_ hpre')
          intro hc
          rcases List.mem_cons.mp hc with h' | h'
          · exact hpre w (List.mem_cons_self _ _) rootw hnw h'.symm
          · exact hseen h'
    · simp only [hgw, Bool.false_eq_true, if_false]
      exact ih seen hseen hpre'

/-- The head of the stably sorted candidate list scores at least as much as
any candidate. -/
theorem sortCandidates_head_max (cands : List Candidate) (c : Candidate) (hc : c ∈ cands) :
    ∃ top rest, sortCandidates cands = top :: rest ∧ c.score ≤ top.score := by
  have hperm := List.mergeSort_perm cands (fun a b => decide (b.score ≤ a.score))
  have hmem : c ∈ sortCandidates cands := hperm.symm.subset hc
  have hsorted : List.Pairwise (fun a b => (decide (b.score ≤ a.score)) = true)
      (sortCandidates cands) :=
    List.sorted_mergeSort
      (fun a b c hab hbc => by simp at hab hbc ⊢; omega)
      (fun a b => by simp [Bool.or_eq_true]; omega) cands
  cases hs : sortCandidates cands with
  | nil => rw [hs] at hmem; cases hmem
  | cons top rest =>
    rw [hs] at hmem hsorted
    refine ⟨top, rest, rfl, ?_⟩
    rcases List.mem_cons.mp hmem with h | h
    · rw [h]
    · have h2 := (List.pairwise_cons.mp hsorted).1 c h
      simpa using h2

/-! ### C2: scoring and auto-selection -/

/-- C2 (counterexample to the claim as stated): a result URL containing both
the package name and the literal version string can be deduplicated away
when an earlier result already produced its canonical root, in which case it
is never scored; here the surviving candidate scores 0, the interactive
prompt is invoked, and nothing is persisted. -/
theorem claim_C2_counterexample :
    containsSub (lowerStr "mypkg".data)
        (lowerStr "https://github.com/o/r/tree/mypkg-1.0".data) = true
      ∧ containsSub "1.0".data "https://github.com/o/r/tree/mypkg-1.0".data = true
      ∧ search_for_repo_url "mypkg".data "1.0".data []
          ["https://github.com/o/r".data, "https://github.com/o/r/tree/mypkg-1.0".data]
        = (.prompted ["https://github.com/o/r".data], []) := by
  have hb : buildCandidates "mypkg".data "1.0".data []
      ["https://github.com/o/r".data, "https://github.com/o/r/tree/mypkg-1.0".data]
      = [⟨"https://github.com/o/r".data, 0⟩] := by decide
  have hs : sortCandidates [(⟨"https://github.com/o/r".data, 0⟩ : Candidate)]
      = [⟨"https://github.com/o/r".data, 0⟩] :=
    List.perm_singleton.mp (List.mergeSort_perm _ _)
  refine ⟨by decide, by decide, ?_⟩
  rw [search_for_repo_url, hb, hs]
  decide

/-- C2 (amended): in a web search for a package with no cached choice, if
some result URL passes the supported-host filter, normalizes to a canonical
root that no earlier result normalizes to (so it is not deduplicated away),
and contains both the package name case-insensitively and the literal
version string, then its candidate scores at least 3 (+2 for the name, +1
for the version, scored against the raw result URL), the top-scoring
candidate is selected automatically without invoking the interactive prompt,
and that selection is persisted to the Choice Store. -/
theorem claim_C2_autoselect (name version u root : List Char)
    (cache : List (List Char × List Char)) (pre post : List (List Char))
    (hcache : lookupChoice name cache = none)
    (hg : is_git_repo u = true)
    (hn : normalize_to_repo_root u = some root)
    (hfresh : ∀ w ∈ pre, ∀ rootw, normalize_to_repo_root w = some rootw → rootw ≠ root)
    (hname : containsSub (lowerStr name) (lowerStr u) = true)
    (hver : containsSub version u = true) :
    ∃ chosen,
      search_for_repo_url name version cache (pre ++ u :: post)
          = (.autoSelected chosen, insertChoice name chosen cache)
        ∧ lookupChoice name (insertChoice name chosen cache) = some chosen
        ∧ (∃ c ∈ buildCandidates name version [] (pre ++ u :: post),
            c.url = root ∧ 3 ≤ c.score) := by
  have hc : Candidate.mk root 3 ∈ buildCandidates name version [] (pre ++ u :: post) := by
    have h0 := buildCandidates_mem name version u root post hg hn pre []
      (by simp) hfresh
    simpa [hname, hver] using h0
  obtain ⟨top, rest, hs, hle⟩ := sortCandidates_head_max _ _ hc
  have htop : 3 ≤ top.score := hle
  refine ⟨top.url, ?_, lookupChoice_insertChoice name top.url cache,
    ⟨_, hc, rfl, by norm_num⟩⟩
  simp only [search_for_repo_url, hcache, hs]
  rw [if_pos htop]

/-- Concrete instantiation of `claim_C2_autoselect`: a single result whose
URL contains both the name and the version is auto-selected and persisted. -/
theorem claim_C2_witness :
    ∃ chosen,
      search_for_repo_url "requests".data "2.31.0".data []
          ([] ++ "https://github.com/psf/requests/tree/2.31.0".data :: [])
        = (.autoSelected chosen, insertChoice "requests".data chosen [])
      ∧ lookupChoice "requests".data (insertChoice "requests".data chosen []) = some chosen
      ∧ (∃ c ∈ buildCandidates "requests".data "2.31.0".data []
            ([] ++ "https://github.com/psf/requests/tree/2.31.0".data :: []),
          c.url = "https://github.com/psf/requests".data ∧ 3 ≤ c.score) := by
  exact claim_C2_autoselect "requests".data "2.31.0".data
    "https://github.com/psf/requests/tree/2.31.0".data
    "https://github.com/psf/requests".data [] [] []
    rfl (by decide) (by decide) (by simp) (by decide) (by decide)

end RefFetch
